import Mathlib

/-!
Verification of the Python ingestion core of codegraph-mcp
(src/py/ingest_py.py), shallowly embedded in Lean.

The embedding keeps the source's names (`make_id`, `norm_path`, `range_of`,
`ingest_file`, the `Visitor` methods) and its emission order.  Machine-level
hashing (`hashlib.sha1`) is modelled bit-faithfully on `Nat` with explicit
reduction modulo 2^32, so ids are concretely computable.
-/

namespace CodeGraph

/-! ### Stable identifier generator (`make_id`)

The Python code feeds the UTF-8 encoding of `str(p)` for each part into one
SHA-1 context and returns the first 16 characters of the hex digest.  That
equals the SHA-1 of the concatenation of the encoded parts. -/

def M32 : Nat := 4294967296

def rotl (n x : Nat) : Nat := ((x <<< n) % M32) ||| (x >>> (32 - n))

/-- UTF-8 encoding of a Unicode code point. -/
def utf8Bytes (c : Nat) : List Nat :=
  if c < 128 then [c]
  else if c < 2048 then [192 ||| (c >>> 6), 128 ||| (c &&& 63)]
  else if c < 65536 then
    [224 ||| (c >>> 12), 128 ||| ((c >>> 6) &&& 63), 128 ||| (c &&& 63)]
  else
    [240 ||| (c >>> 18), 128 ||| ((c >>> 12) &&& 63),
     128 ||| ((c >>> 6) &&& 63), 128 ||| (c &&& 63)]

/-- `s.encode('utf-8')` as a list of byte values. -/
def strBytes (s : String) : List Nat :=
  (s.data.map fun c => utf8Bytes c.toNat).flatten

/-- Big-endian 64-bit byte encoding (the SHA-1 length tail). -/
def be64 (n : Nat) : List Nat :=
  [(n >>> 56) &&& 255, (n >>> 48) &&& 255, (n >>> 40) &&& 255,
   (n >>> 32) &&& 255, (n >>> 24) &&& 255, (n >>> 16) &&& 255,
   (n >>> 8) &&& 255, n &&& 255]

/-- SHA-1 message padding: `0x80`, zeros to 56 mod 64, then the bit length. -/
def sha1pad (msg : List Nat) : List Nat :=
  let padZeros := (120 - (msg.length + 1) % 64) % 64
  msg ++ [128] ++ List.replicate padZeros 0 ++ be64 (8 * msg.length)

/-- Split a padded message into 64-byte chunks. -/
def chunks64 (bs : List Nat) : List (List Nat) :=
  (List.range (bs.length / 64)).map fun i => (bs.drop (64 * i)).take 64

/-- Big-endian 32-bit word `i` of a chunk. -/
def word32 (bs : List Nat) (i : Nat) : Nat :=
  ((bs.getD (4 * i) 0) <<< 24) ||| ((bs.getD (4 * i + 1) 0) <<< 16) |||
  ((bs.getD (4 * i + 2) 0) <<< 8) ||| bs.getD (4 * i + 3) 0

def chunkWords (chunk : List Nat) : Array Nat :=
  ((List.range 16).map fun i => word32 chunk i).toArray

/-- Extend 16 words to the 80-word SHA-1 schedule. -/
def extendWords (ws : Array Nat) : Array Nat :=
  (List.range 64).foldl (fun a i =>
    a.push (rotl 1 ((a.getD (i + 13) 0) ^^^ (a.getD (i + 8) 0) ^^^
                    (a.getD (i + 2) 0) ^^^ (a.getD i 0)))) ws

def sha1round (w : Array Nat) (st : Nat × Nat × Nat × Nat × Nat) (i : Nat) :
    Nat × Nat × Nat × Nat × Nat :=
  let (a, b, c, d, e) := st
  let f :=
    if i < 20 then (b &&& c) ||| ((b ^^^ 4294967295) &&& d)
    else if i < 40 then b ^^^ c ^^^ d
    else if i < 60 then (b &&& c) ||| (b &&& d) ||| (c &&& d)
    else b ^^^ c ^^^ d
  let k :=
    if i < 20 then 1518500249
    else if i < 40 then 1859775393
    else if i < 60 then 2400959708
    else 3395469782
  let temp := (rotl 5 a + f + e + k + w.getD i 0) % M32
  (temp, a, rotl 30 b, c, d)

def sha1chunk (hs : Nat × Nat × Nat × Nat × Nat) (chunk : List Nat) :
    Nat × Nat × Nat × Nat × Nat :=
  let w := extendWords (chunkWords chunk)
  let (h0, h1, h2, h3, h4) := hs
  let (a, b, c, d, e) := (List.range 80).foldl (fun st i => sha1round w st i)
      (h0, h1, h2, h3, h4)
  ((h0 + a) % M32, (h1 + b) % M32, (h2 + c) % M32, (h3 + d) % M32, (h4 + e) % M32)

def hexChar (n : Nat) : Char := "0123456789abcdef".data.getD n '0'

def wordHex (w : Nat) : List Char :=
  (List.range 8).map fun i => hexChar ((w >>> (28 - 4 * i)) &&& 15)

/-- Lowercase hex SHA-1 digest of a byte list. -/
def sha1Hex (msg : List Nat) : String :=
  let (h0, h1, h2, h3, h4) := (chunks64 (sha1pad msg)).foldl sha1chunk
      (1732584193, 4023233417, 2562383102, 271733878, 3285377520)
  String.mk (wordHex h0 ++ wordHex h1 ++ wordHex h2 ++ wordHex h3 ++ wordHex h4)

/-- `make_id(parts)`: SHA-1 over the concatenated UTF-8 parts, first 16 hex
characters.  Numeric parts are stringified (`str(p)`) at the call sites of the
embedding, matching `str` on non-negative ints. -/
def make_id (parts : List String) : String :=
  (sha1Hex ((parts.map strBytes).flatten)).take 16

/-! ### Data model (§3 of the design): symbols, edges, records -/

/-- `norm_path`: replace backslashes by forward slashes. -/
def norm_path (p : String) : String := p.replace "\x5c" "/"

structure Range where
  startLine : Nat
  startCol : Nat
  endLine : Nat
  endCol : Nat
deriving DecidableEq, Repr

structure Symbol where
  id : String
  kind : String
  name : String
  file : String
  range : Range
  language : String
  parentId : Option String := none
deriving DecidableEq, Repr

structure Edge where
  src : String
  type : String
  dst : String
deriving DecidableEq, Repr

/-- One NDJSON record of the fact stream, tagged by its `type` field. -/
inductive Record where
  | symbol (s : Symbol)
  | edge (e : Edge)
  | call (calleeName : String) (file : String) (modId : String)
  | name_index (file : String) (index : List (String × List Symbol))
deriving DecidableEq, Repr

/-! ### Python `ast` nodes (the subset the visitor inspects)

Positions: `lineno` is 1-based, `col_offset` 0-based; `end_lineno` and
`end_col_offset` may be absent (`getattr` default in `range_of`). -/

structure Pos where
  lineno : Nat
  colOffset : Nat
  endLineno : Option Nat := none
  endColOffset : Option Nat := none
deriving DecidableEq, Repr

/-- `range_of(node)`: start from `lineno`/`col_offset + 1`; end positions
default to the start values when the node does not carry them. -/
def range_of (pos : Pos) : Range :=
  let sl := pos.lineno
  let sc := pos.colOffset + 1
  let el := pos.endLineno.getD sl
  let ec := pos.endColOffset.getD sc
  ⟨sl, sc, el, ec⟩

/-- Expression nodes, named after the `ast` classes.  Only `Name`/`Attribute`
heads of a `Call` matter for emission; the rest is generic traversal. -/
inductive Expr where
  | Name (id : String) (pos : Pos)
  | Attribute (value : Expr) (attr : String)
  | Subscript (value : Expr) (slice : Expr)
  | Tuple (elts : List Expr)
  | Call (func : Expr) (args : List Expr)
  | Constant
deriving Repr

/-- Statement nodes, named after the `ast` classes.  `ExprStmt` is `ast.Expr`
(an expression used as a statement).  `Import` carries the `alias.name`s of
its aliases; `ImportFrom` carries `module` (possibly absent) and `level`. -/
inductive Stmt where
  | FunctionDef (name : String) (pos : Pos) (body : List Stmt)
  | ClassDef (name : String) (pos : Pos) (body : List Stmt)
  | Assign (targets : List Expr) (value : Expr)
  | Import (names : List String)
  | ImportFrom (module : Option String) (level : Nat)
  | ExprStmt (value : Expr)
deriving Repr

/-! ### Symbol builders (the dict literals of the visitor methods) -/

/-- The per-file module root symbol (`mod_sym` in `ingest_file`).  Note its id
hashes the language tag `'python'`, not the symbol's `name`. -/
def modSym (file_rel : String) : Symbol :=
  { id := make_id ["module", "python", file_rel, "1", "1"],
    kind := "module", name := file_rel, file := file_rel,
    range := ⟨1, 1, 1, 1⟩, language := "python" }

/-- The function symbol of `visit_FunctionDef`. -/
def fnSym (fileRel name : String) (pos : Pos) : Symbol :=
  { id := make_id ["function", name, fileRel, toString pos.lineno,
                   toString (pos.colOffset + 1)],
    kind := "function", name := name, file := fileRel,
    range := range_of pos, language := "python" }

/-- The class symbol of `visit_ClassDef`. -/
def classSym (fileRel name : String) (pos : Pos) : Symbol :=
  { id := make_id ["class", name, fileRel, toString pos.lineno,
                   toString (pos.colOffset + 1)],
    kind := "class", name := name, file := fileRel,
    range := range_of pos, language := "python" }

/-- The method symbol of `visit_ClassDef`'s direct-body scan. -/
def methSym (fileRel klassId mname : String) (pos : Pos) : Symbol :=
  { id := make_id ["method", mname, fileRel, toString pos.lineno,
                   toString (pos.colOffset + 1)],
    kind := "method", name := mname, file := fileRel,
    range := range_of pos, language := "python", parentId := some klassId }

/-- The variable symbol of `visit_Assign`. -/
def varSym (fileRel vname : String) (pos : Pos) : Symbol :=
  { id := make_id ["variable", vname, fileRel, toString pos.lineno,
                   toString (pos.colOffset + 1)],
    kind := "variable", name := vname, file := fileRel,
    range := range_of pos, language := "python" }

/-- The pseudo-module symbol of `visit_Import` / `visit_ImportFrom`: keyed on
the specifier alone (`make_id(['module', spec, spec, 1, 1])`). -/
def pseudoSym (spec : String) : Symbol :=
  { id := make_id ["module", spec, spec, "1", "1"],
    kind := "module", name := spec, file := spec,
    range := ⟨1, 1, 1, 1⟩, language := "python" }

/-! ### The visitor

State = records emitted so far (in order) plus the per-file `name_index`
dict, an insertion-ordered association list (`setdefault(...).append`). -/

structure VState where
  records : List Record
  index : List (String × List Symbol)
deriving DecidableEq, Repr

def emit (st : VState) (r : Record) : VState :=
  { st with records := st.records ++ [r] }

/-- `name_index.setdefault(nm, []).append(sym)` on an insertion-ordered dict. -/
def indexAdd (idx : List (String × List Symbol)) (nm : String) (sym : Symbol) :
    List (String × List Symbol) :=
  if idx.any fun p => p.1 == nm then
    idx.map fun p => if p.1 == nm then (p.1, p.2 ++ [sym]) else p
  else idx ++ [(nm, [sym])]

/-- `visit_Call`'s callee-name extraction: a bare `Name`'s id or the trailing
attribute of an `Attribute`; anything else yields no name. -/
def calleeNameOf : Expr → Option String
  | .Name nm _ => some nm
  | .Attribute _ attr => some attr
  | _ => none

mutual

/-- Expression traversal: `visit_Call` emits a call fact then generic-visits
its children; every other expression kind is only generic-visited. -/
def visitExpr (fileRel modId : String) (st : VState) : Expr → VState
  | .Name _ _ => st
  | .Constant => st
  | .Attribute value _ => visitExpr fileRel modId st value
  | .Subscript value slice =>
    visitExpr fileRel modId (visitExpr fileRel modId st value) slice
  | .Tuple elts => visitExprs fileRel modId st elts
  | .Call func args =>
    let st :=
      match calleeNameOf func with
      | some nm => if nm = "" then st else emit st (.call nm fileRel modId)
      | none => st
    visitExprs fileRel modId (visitExpr fileRel modId st func) args

def visitExprs (fileRel modId : String) (st : VState) : List Expr → VState
  | [] => st
  | e :: rest => visitExprs fileRel modId (visitExpr fileRel modId st e) rest

end

/-- `visit_ClassDef`'s direct scan of the class body: each immediate
`FunctionDef` becomes a method symbol (with `parentId`) plus a `member_of`
edge, and is appended to the name index. -/
def methodScan (fileRel klassId : String) (st : VState) : List Stmt → VState
  | [] => st
  | .FunctionDef mname mpos _ :: rest =>
    let msym := methSym fileRel klassId mname mpos
    let st := emit st (.symbol msym)
    let st := emit st (.edge ⟨klassId, "member_of", msym.id⟩)
    let st := { st with index := indexAdd st.index mname msym }
    methodScan fileRel klassId st rest
  | _ :: rest => methodScan fileRel klassId st rest

/-- `visit_Import`'s loop over aliases: one pseudo-module symbol and one
`import` edge per specifier. -/
def importScan (modId : String) (st : VState) : List String → VState
  | [] => st
  | spec :: rest =>
    let st := emit st (.symbol (pseudoSym spec))
    let st := emit st (.edge ⟨modId, "import", (pseudoSym spec).id⟩)
    importScan modId st rest

mutual

/-- Statement dispatch of the `Visitor` (per-kind `visit_*` methods; the
trailing `visitStmts`/`visitExpr` calls are `generic_visit`). -/
def visitStmt (fileRel modId : String) (st : VState) : Stmt → VState
  | .FunctionDef name pos body =>
    let sym := fnSym fileRel name pos
    let st := emit st (.symbol sym)
    let st := emit st (.edge ⟨modId, "defines", sym.id⟩)
    let st := { st with index := indexAdd st.index name sym }
    visitStmts fileRel modId st body
  | .ClassDef name pos body =>
    let klass := classSym fileRel name pos
    let st := emit st (.symbol klass)
    let st := emit st (.edge ⟨modId, "defines", klass.id⟩)
    let st := methodScan fileRel klass.id st body
    visitStmts fileRel modId st body
  | .Assign targets value =>
    let st :=
      match targets with
      | .Name vname vpos :: _ =>
        let sym := varSym fileRel vname vpos
        let st := emit st (.symbol sym)
        let st := emit st (.edge ⟨modId, "defines", sym.id⟩)
        { st with index := indexAdd st.index vname sym }
      | _ => st
    visitExpr fileRel modId (visitExprs fileRel modId st targets) value
  | .Import names => importScan modId st names
  | .ImportFrom module level =>
    let spec := module.getD "" ++ String.mk (List.replicate level '.')
    let st := emit st (.symbol (pseudoSym spec))
    emit st (.edge ⟨modId, "import", (pseudoSym spec).id⟩)
  | .ExprStmt value => visitExpr fileRel modId st value

def visitStmts (fileRel modId : String) (st : VState) : List Stmt → VState
  | [] => st
  | s :: rest => visitStmts fileRel modId (visitStmt fileRel modId st s) rest

end

/-! ### Per-file ingestion -/

/-- The successfully-parsed branch of `ingest_file`: module symbol first, one
traversal, then the `name_index` record.  `file_rel` is
`norm_path(os.path.relpath(path, root))`, computed by the (external) OS
layer. -/
def ingest_tree (file_rel : String) (tree : List Stmt) : List Record :=
  let st : VState := ⟨[Record.symbol (modSym file_rel)], []⟩
  let st := visitStmts file_rel (modSym file_rel).id st tree
  st.records ++ [Record.name_index file_rel st.index]

/-- `ingest_file`: a failed read (`except Exception: return`) or a failed
parse (`except SyntaxError: return`) emits nothing; otherwise the tree is
ingested.  Reading and parsing are external effects, passed as the read
outcome and the parser function. -/
def ingest_file (file_rel : String) (read : Option String)
    (parse : String → Option (List Stmt)) : List Record :=
  match read with
  | none => []
  | some src =>
    match parse src with
    | none => []
    | some tree => ingest_tree file_rel tree

/-! ### Pure record deltas

The visitor only ever appends to `records`; these functions compute the
appended suffix as a pure function of the node, which the frame lemmas below
prove equal to what the visitor emits. -/

mutual

def callRecsE (fileRel modId : String) : Expr → List Record
  | .Name _ _ => []
  | .Constant => []
  | .Attribute value _ => callRecsE fileRel modId value
  | .Subscript value slice =>
    callRecsE fileRel modId value ++ callRecsE fileRel modId slice
  | .Tuple elts => callRecsEs fileRel modId elts
  | .Call func args =>
    (match calleeNameOf func with
     | some nm => if nm = "" then [] else [Record.call nm fileRel modId]
     | none => []) ++
    (callRecsE fileRel modId func ++ callRecsEs fileRel modId args)

def callRecsEs (fileRel modId : String) : List Expr → List Record
  | [] => []
  | e :: rest => callRecsE fileRel modId e ++ callRecsEs fileRel modId rest

end

def methRecs (fileRel klassId : String) : List Stmt → List Record
  | [] => []
  | .FunctionDef mname mpos _ :: rest =>
    Record.symbol (methSym fileRel klassId mname mpos) ::
    Record.edge ⟨klassId, "member_of", (methSym fileRel klassId mname mpos).id⟩ ::
    methRecs fileRel klassId rest
  | _ :: rest => methRecs fileRel klassId rest

def impRecs (modId : String) : List String → List Record
  | [] => []
  | spec :: rest =>
    Record.symbol (pseudoSym spec) ::
    Record.edge ⟨modId, "import", (pseudoSym spec).id⟩ ::
    impRecs modId rest

mutual

def stmtRecs (fileRel modId : String) : Stmt → List Record
  | .FunctionDef name pos body =>
    Record.symbol (fnSym fileRel name pos) ::
    Record.edge ⟨modId, "defines", (fnSym fileRel name pos).id⟩ ::
    stmtRecsL fileRel modId body
  | .ClassDef name pos body =>
    Record.symbol (classSym fileRel name pos) ::
    Record.edge ⟨modId, "defines", (classSym fileRel name pos).id⟩ ::
    (methRecs fileRel (classSym fileRel name pos).id body ++
     stmtRecsL fileRel modId body)
  | .Assign targets value =>
    (match targets with
     | .Name vname vpos :: _ =>
       [Record.symbol (varSym fileRel vname vpos),
        Record.edge ⟨modId, "defines", (varSym fileRel vname vpos).id⟩]
     | _ => []) ++
    (callRecsEs fileRel modId targets ++ callRecsE fileRel modId value)
  | .Import names => impRecs modId names
  | .ImportFrom module level =>
    let spec := module.getD "" ++ String.mk (List.replicate level '.')
    [Record.symbol (pseudoSym spec),
     Record.edge ⟨modId, "import", (pseudoSym spec).id⟩]
  | .ExprStmt value => callRecsE fileRel modId value

def stmtRecsL (fileRel modId : String) : List Stmt → List Record
  | [] => []
  | s :: rest => stmtRecs fileRel modId s ++ stmtRecsL fileRel modId rest

end

/-! ### Frame lemmas: the visitor appends exactly the pure deltas -/

theorem emit_eq (st : VState) (r : Record) : emit st r = ⟨st.records ++ [r], st.index⟩ :=
  rfl

mutual

theorem visitExpr_eq (fileRel modId : String) :
    (st : VState) → (e : Expr) →
    visitExpr fileRel modId st e = ⟨st.records ++ callRecsE fileRel modId e, st.index⟩
  | st, .Name _ _ => by simp [visitExpr, callRecsE]
  | st, .Constant => by simp [visitExpr, callRecsE]
  | st, .Attribute v a => by
    simp only [visitExpr, callRecsE]
    exact visitExpr_eq fileRel modId st v
  | st, .Subscript v s => by
    simp only [visitExpr, callRecsE]
    rw [visitExpr_eq fileRel modId st v, visitExpr_eq fileRel modId _ s]
    simp
  | st, .Tuple elts => by
    simp only [visitExpr, callRecsE]
    exact visitExprs_eq fileRel modId st elts
  | st, .Call func args => by
    simp only [visitExpr, callRecsE]
    cases hc : calleeNameOf func with
    | none =>
      simp only [hc]
      rw [visitExpr_eq fileRel modId st func, visitExprs_eq fileRel modId _ args]
      simp
    | some nm =>
      by_cases hnm : nm = ""
      · simp only [hc, hnm]
        simp only [if_pos trivial]
        rw [visitExpr_eq fileRel modId st func, visitExprs_eq fileRel modId _ args]
        simp
      · simp only [hc, if_neg hnm, emit_eq]
        rw [visitExpr_eq fileRel modId _ func, visitExprs_eq fileRel modId _ args]
        simp

theorem visitExprs_eq (fileRel modId : String) :
    (st : VState) → (es : List Expr) →
    visitExprs fileRel modId st es = ⟨st.records ++ callRecsEs fileRel modId es, st.index⟩
  | st, [] => by simp [visitExprs, callRecsEs]
  | st, e :: rest => by
    simp only [visitExprs, callRecsEs]
    rw [visitExpr_eq fileRel modId st e, visitExprs_eq fileRel modId _ rest]
    simp

end

theorem methodScan_records (fileRel klassId : String) :
    (st : VState) → (body : List Stmt) →
    (methodScan fileRel klassId st body).records =
      st.records ++ methRecs fileRel klassId body
  | st, [] => by simp [methodScan, methRecs]
  | st, s :: rest => by
    cases s with
    | FunctionDef mname mpos b =>
      simp only [methodScan, methRecs, emit_eq]
      rw [methodScan_records fileRel klassId _ rest]
      simp
    | ClassDef name pos body =>
      simp only [methodScan, methRecs]
      exact methodScan_records fileRel klassId st rest
    | Assign targets value =>
      simp only [methodScan, methRecs]
      exact methodScan_records fileRel klassId st rest
    | Import names =>
      simp only [methodScan, methRecs]
      exact methodScan_records fileRel klassId st rest
    | ImportFrom module level =>
      simp only [methodScan, methRecs]
      exact methodScan_records fileRel klassId st rest
    | ExprStmt value =>
      simp only [methodScan, methRecs]
      exact methodScan_records fileRel klassId st rest

theorem importScan_records (modId : String) :
    (st : VState) → (names : List String) →
    (importScan modId st names).records = st.records ++ impRecs modId names
  | st, [] => by simp [importScan, impRecs]
  | st, spec :: rest => by
    simp only [importScan, impRecs, emit_eq]
    rw [importScan_records modId _ rest]
    simp

mutual

theorem visitStmt_records (fileRel modId : String) :
    (st : VState) → (s : Stmt) →
    (visitStmt fileRel modId st s).records = st.records ++ stmtRecs fileRel modId s
  | st, .FunctionDef name pos body => by
    simp only [visitStmt, stmtRecs, emit_eq]
    rw [visitStmts_records fileRel modId _ body]
    simp
  | st, .ClassDef name pos body => by
    simp only [visitStmt, stmtRecs, emit_eq]
    rw [visitStmts_records fileRel modId _ body, methodScan_records]
    simp
  | st, .Assign targets value => by
    cases targets with
    | nil =>
      simp only [visitStmt, stmtRecs]
      rw [visitExpr_eq fileRel modId _ value, visitExprs_eq fileRel modId st []]
      simp [callRecsEs]
    | cons t rest =>
      cases t with
      | Name vname vpos =>
        simp only [visitStmt, stmtRecs, emit_eq]
        rw [visitExpr_eq fileRel modId _ value,
            visitExprs_eq fileRel modId _ (Expr.Name vname vpos :: rest)]
        simp
      | Attribute v a =>
        simp only [visitStmt, stmtRecs]
        rw [visitExpr_eq fileRel modId _ value,
            visitExprs_eq fileRel modId st (Expr.Attribute v a :: rest)]
        simp
      | Subscript v s =>
        simp only [visitStmt, stmtRecs]
        rw [visitExpr_eq fileRel modId _ value,
            visitExprs_eq fileRel modId st (Expr.Subscript v s :: rest)]
        simp
      | Tuple elts =>
        simp only [visitStmt, stmtRecs]
        rw [visitExpr_eq fileRel modId _ value,
            visitExprs_eq fileRel modId st (Expr.Tuple elts :: rest)]
        simp
      | Call func args =>
        simp only [visitStmt, stmtRecs]
        rw [visitExpr_eq fileRel modId _ value,
            visitExprs_eq fileRel modId st (Expr.Call func args :: rest)]
        simp
      | Constant =>
        simp only [visitStmt, stmtRecs]
        rw [visitExpr_eq fileRel modId _ value,
            visitExprs_eq fileRel modId st (Expr.Constant :: rest)]
        simp
  | st, .Import names => by
    simp only [visitStmt, stmtRecs]
    exact importScan_records modId st names
  | st, .ImportFrom module level => by
    simp [visitStmt, stmtRecs, emit_eq]
  | st, .ExprStmt value => by
    simp only [visitStmt, stmtRecs]
    rw [visitExpr_eq fileRel modId st value]

theorem visitStmts_records (fileRel modId : String) :
    (st : VState) → (ss : List Stmt) →
    (visitStmts fileRel modId st ss).records = st.records ++ stmtRecsL fileRel modId ss
  | st, [] => by simp [visitStmts, stmtRecsL]
  | st, s :: rest => by
    simp only [visitStmts, stmtRecsL]
    rw [visitStmts_records fileRel modId _ rest, visitStmt_records fileRel modId st s]
    simp

end

/-- The full stream of a successfully parsed file: module symbol, the
traversal's deltas, the final `name_index` record. -/
theorem ingest_tree_eq (file_rel : String) (tree : List Stmt) :
    ingest_tree file_rel tree =
      Record.symbol (modSym file_rel) ::
        (stmtRecsL file_rel (modSym file_rel).id tree ++
         [Record.name_index file_rel
            (visitStmts file_rel (modSym file_rel).id
              ⟨[Record.symbol (modSym file_rel)], []⟩ tree).index]) := by
  simp only [ingest_tree]
  rw [visitStmts_records]
  simp

/-! ### The id contract: symbol id = hash of (kind, name, file, line, column) -/

/-- The spec's id law for one symbol: the id is `make_id` of the ordered tuple
(kind, name, file, startLine, startCol). -/
def SymTupleOk (s : Symbol) : Prop :=
  s.id = make_id [s.kind, s.name, s.file, toString s.range.startLine,
                  toString s.range.startCol]

/-- Every symbol record in a record list obeys `SymTupleOk`. -/
def RecsTupleOk (rs : List Record) : Prop :=
  ∀ r ∈ rs, ∀ s : Symbol, r = Record.symbol s → SymTupleOk s

theorem recsTupleOk_append {a b : List Record}
    (ha : RecsTupleOk a) (hb : RecsTupleOk b) : RecsTupleOk (a ++ b) := by
  intro r hr s hs
  rcases List.mem_append.mp hr with h | h
  exacts [ha r h s hs, hb r h s hs]

theorem recsTupleOk_cons {r : Record} {b : List Record}
    (hr : ∀ s : Symbol, r = Record.symbol s → SymTupleOk s)
    (hb : RecsTupleOk b) : RecsTupleOk (r :: b) := by
  intro x hx s hs
  rcases List.mem_cons.mp hx with h | h
  · exact hr s (h ▸ hs)
  · exact hb x h s hs

theorem symTupleOk_fnSym (f n : String) (p : Pos) : SymTupleOk (fnSym f n p) := by
  unfold SymTupleOk fnSym range_of; simp

theorem symTupleOk_classSym (f n : String) (p : Pos) : SymTupleOk (classSym f n p) := by
  unfold SymTupleOk classSym range_of; simp

theorem symTupleOk_methSym (f kid n : String) (p : Pos) :
    SymTupleOk (methSym f kid n p) := by
  unfold SymTupleOk methSym range_of; simp

theorem symTupleOk_varSym (f n : String) (p : Pos) : SymTupleOk (varSym f n p) := by
  unfold SymTupleOk varSym range_of; simp

theorem symTupleOk_pseudoSym (spec : String) : SymTupleOk (pseudoSym spec) := by
  unfold SymTupleOk pseudoSym
  simp only [show toString (1 : Nat) = "1" from rfl]

/-- Transport `SymTupleOk` along an equality of symbol records. -/
theorem symOk_of_symbol_eq {A : Symbol} (hA : SymTupleOk A) :
    ∀ s : Symbol, Record.symbol A = Record.symbol s → SymTupleOk s := by
  intro s hs
  injection hs with h
  exact h ▸ hA

/-- An edge record is never a symbol record. -/
theorem symOk_of_edge_eq (E : Edge) :
    ∀ s : Symbol, Record.edge E = Record.symbol s → SymTupleOk s :=
  fun _ hs => Record.noConfusion hs

mutual

/-- Everything `visitExpr` emits is a call record of the enclosing file and
module. -/
theorem callRecsE_calls (fileRel modId : String) :
    (e : Expr) → (r : Record) → r ∈ callRecsE fileRel modId e →
    ∃ nm, r = Record.call nm fileRel modId
  | .Name _ _, r, hr => by simp [callRecsE] at hr
  | .Constant, r, hr => by simp [callRecsE] at hr
  | .Attribute v _, r, hr =>
    callRecsE_calls fileRel modId v r (by simpa [callRecsE] using hr)
  | .Subscript v s, r, hr => by
    simp only [callRecsE, List.mem_append] at hr
    rcases hr with h | h
    exacts [callRecsE_calls fileRel modId v r h, callRecsE_calls fileRel modId s r h]
  | .Tuple elts, r, hr =>
    callRecsEs_calls fileRel modId elts r (by simpa [callRecsE] using hr)
  | .Call func args, r, hr => by
    simp only [callRecsE, List.mem_append] at hr
    rcases hr with h | h | h
    · cases hc : calleeNameOf func with
      | none => rw [hc] at h; simp at h
      | some nm =>
        rw [hc] at h
        by_cases hnm : nm = ""
        · simp [hnm] at h
        · simp [hnm] at h
          exact ⟨nm, h⟩
    · exact callRecsE_calls fileRel modId func r h
    · exact callRecsEs_calls fileRel modId args r h

theorem callRecsEs_calls (fileRel modId : String) :
    (es : List Expr) → (r : Record) → r ∈ callRecsEs fileRel modId es →
    ∃ nm, r = Record.call nm fileRel modId
  | [], r, hr => by simp [callRecsEs] at hr
  | e :: rest, r, hr => by
    simp only [callRecsEs, List.mem_append] at hr
    rcases hr with h | h
    exacts [callRecsE_calls fileRel modId e r h,
            callRecsEs_calls fileRel modId rest r h]

end

theorem recsTupleOk_of_calls {fileRel modId : String} {rs : List Record}
    (h : ∀ r ∈ rs, ∃ nm, r = Record.call nm fileRel modId) : RecsTupleOk rs := by
  intro r hr s hs
  rcases h r hr with ⟨nm, rfl⟩
  cases hs

theorem methRecs_tupleOk (f kid : String) :
    (body : List Stmt) → RecsTupleOk (methRecs f kid body)
  | [] => by intro r hr; simp [methRecs] at hr
  | s :: rest => by
    cases s with
    | FunctionDef mname mpos b =>
      exact recsTupleOk_cons (symOk_of_symbol_eq (symTupleOk_methSym f kid mname mpos))
        (recsTupleOk_cons (symOk_of_edge_eq _) (methRecs_tupleOk f kid rest))
    | ClassDef n p b => exact methRecs_tupleOk f kid rest
    | Assign t v => exact methRecs_tupleOk f kid rest
    | Import n => exact methRecs_tupleOk f kid rest
    | ImportFrom mo l => exact methRecs_tupleOk f kid rest
    | ExprStmt v => exact methRecs_tupleOk f kid rest

theorem impRecs_tupleOk (modId : String) :
    (names : List String) → RecsTupleOk (impRecs modId names)
  | [] => by intro r hr; simp [impRecs] at hr
  | spec :: rest =>
    recsTupleOk_cons (symOk_of_symbol_eq (symTupleOk_pseudoSym spec))
      (recsTupleOk_cons (symOk_of_edge_eq _) (impRecs_tupleOk modId rest))

mutual

theorem stmtRecs_tupleOk (f m : String) : (s : Stmt) → RecsTupleOk (stmtRecs f m s)
  | .FunctionDef name pos body =>
    recsTupleOk_cons (symOk_of_symbol_eq (symTupleOk_fnSym f name pos))
      (recsTupleOk_cons (symOk_of_edge_eq _) (stmtRecsL_tupleOk f m body))
  | .ClassDef name pos body =>
    recsTupleOk_cons (symOk_of_symbol_eq (symTupleOk_classSym f name pos))
      (recsTupleOk_cons (symOk_of_edge_eq _)
        (recsTupleOk_append (methRecs_tupleOk f (classSym f name pos).id body)
          (stmtRecsL_tupleOk f m body)))
  | .Assign targets value => by
    refine recsTupleOk_append ?_ (recsTupleOk_append
      (recsTupleOk_of_calls fun r hr => callRecsEs_calls f m targets r hr)
      (recsTupleOk_of_calls fun r hr => callRecsE_calls f m value r hr))
    match targets with
    | [] => intro r hr; simp at hr
    | .Name vname vpos :: rest =>
      exact recsTupleOk_cons (symOk_of_symbol_eq (symTupleOk_varSym f vname vpos))
        (recsTupleOk_cons (symOk_of_edge_eq _) (fun r hr => by simp at hr))
    | .Attribute v a :: rest => intro r hr; simp at hr
    | .Subscript v i :: rest => intro r hr; simp at hr
    | .Tuple elts :: rest => intro r hr; simp at hr
    | .Call fn ar :: rest => intro r hr; simp at hr
    | .Constant :: rest => intro r hr; simp at hr
  | .Import names => impRecs_tupleOk m names
  | .ImportFrom module level =>
    recsTupleOk_cons (symOk_of_symbol_eq (symTupleOk_pseudoSym _))
      (recsTupleOk_cons (symOk_of_edge_eq _) (fun r hr => by simp at hr))
  | .ExprStmt value =>
    recsTupleOk_of_calls fun r hr => callRecsE_calls f m value r hr

theorem stmtRecsL_tupleOk (f m : String) : (ss : List Stmt) → RecsTupleOk (stmtRecsL f m ss)
  | [] => by intro r hr; simp [stmtRecsL] at hr
  | s :: rest =>
    recsTupleOk_append (stmtRecs_tupleOk f m s) (stmtRecsL_tupleOk f m rest)

end

/-! ### The stream invariant for C4 -/

def seenPush (seen : List String) : Record → List String
  | .symbol s => s.id :: seen
  | _ => seen

def seenAfter (seen : List String) (rs : List Record) : List String :=
  rs.foldl seenPush seen

/-- `StreamOk modId seen rs`: scanning `rs` left to right, every edge's two
endpoints are ids of symbol records seen strictly earlier (or in `seen`), and
every call record carries `modId`. -/
def StreamOk (modId : String) : List String → List Record → Prop
  | _, [] => True
  | seen, Record.symbol s :: rest => StreamOk modId (s.id :: seen) rest
  | seen, Record.edge e :: rest => e.src ∈ seen ∧ e.dst ∈ seen ∧ StreamOk modId seen rest
  | seen, Record.call _ _ mid :: rest => mid = modId ∧ StreamOk modId seen rest
  | seen, Record.name_index _ _ :: rest => StreamOk modId seen rest

theorem seenAfter_nil (seen : List String) : seenAfter seen [] = seen := rfl

theorem seenAfter_cons (seen : List String) (r : Record) (rs : List Record) :
    seenAfter seen (r :: rs) = seenAfter (seenPush seen r) rs := rfl

theorem subset_seenPush (seen : List String) (r : Record) : seen ⊆ seenPush seen r := by
  cases r with
  | symbol s => exact List.subset_cons_self _ _
  | edge e => exact fun _ h => h
  | call a b c => exact fun _ h => h
  | name_index a b => exact fun _ h => h

theorem subset_seenAfter (seen : List String) :
    (rs : List Record) → seen ⊆ seenAfter seen rs
  | [] => fun _ h => h
  | r :: rs => fun x hx =>
    subset_seenAfter (seenPush seen r) rs (subset_seenPush seen r hx)

theorem streamOk_append (m : String) :
    (rs rs' : List Record) → (seen : List String) →
    (StreamOk m seen (rs ++ rs') ↔
      StreamOk m seen rs ∧ StreamOk m (seenAfter seen rs) rs')
  | [], rs', seen => by simp [StreamOk, seenAfter_nil]
  | Record.symbol s :: rs, rs', seen => by
    simp only [List.cons_append, StreamOk, seenAfter_cons, seenPush]
    exact streamOk_append m rs rs' (s.id :: seen)
  | Record.edge e :: rs, rs', seen => by
    simp only [List.cons_append, StreamOk, seenAfter_cons, seenPush, List.append_eq]
    rw [streamOk_append m rs rs' seen]
    tauto
  | Record.call a b mid :: rs, rs', seen => by
    simp only [List.cons_append, StreamOk, seenAfter_cons, seenPush, List.append_eq]
    rw [streamOk_append m rs rs' seen]
    tauto
  | Record.name_index a b :: rs, rs', seen => by
    simp only [List.cons_append, StreamOk, seenAfter_cons, seenPush]
    exact streamOk_append m rs rs' seen

theorem streamOk_mono (m : String) :
    (rs : List Record) → (seen seen' : List String) → seen ⊆ seen' →
    StreamOk m seen rs → StreamOk m seen' rs
  | [], _, _, _, _ => trivial
  | Record.symbol s :: rs, seen, seen', hsub, h =>
    streamOk_mono m rs (s.id :: seen) (s.id :: seen')
      (List.cons_subset_cons _ hsub) h
  | Record.edge e :: rs, seen, seen', hsub, h =>
    ⟨hsub h.1, hsub h.2.1, streamOk_mono m rs seen seen' hsub h.2.2⟩
  | Record.call a b mid :: rs, seen, seen', hsub, h =>
    ⟨h.1, streamOk_mono m rs seen seen' hsub h.2⟩
  | Record.name_index a b :: rs, seen, seen', hsub, h =>
    streamOk_mono m rs seen seen' hsub h

theorem streamOk_of_calls {f m : String} :
    (rs : List Record) → (∀ r ∈ rs, ∃ nm, r = Record.call nm f m) →
    (seen : List String) → StreamOk m seen rs
  | [], _, _ => trivial
  | r :: rs, h, seen => by
    have htail := streamOk_of_calls rs (fun x hx => h x (List.mem_cons_of_mem r hx)) seen
    rcases h r (List.mem_cons_self r rs) with ⟨nm, rfl⟩
    exact ⟨rfl, htail⟩

theorem streamOk_methRecs (f m kid : String) :
    (body : List Stmt) → (seen : List String) → kid ∈ seen →
    StreamOk m seen (methRecs f kid body)
  | [], _, _ => trivial
  | s :: rest, seen, hkid => by
    cases s with
    | FunctionDef mname mpos b =>
      simp only [methRecs, StreamOk]
      exact ⟨List.mem_cons_of_mem _ hkid, List.mem_cons_self _ _,
        streamOk_methRecs f m kid rest _ (List.mem_cons_of_mem _ hkid)⟩
    | ClassDef n p b =>
      simp only [methRecs]; exact streamOk_methRecs f m kid rest seen hkid
    | Assign t v =>
      simp only [methRecs]; exact streamOk_methRecs f m kid rest seen hkid
    | Import n =>
      simp only [methRecs]; exact streamOk_methRecs f m kid rest seen hkid
    | ImportFrom mo l =>
      simp only [methRecs]; exact streamOk_methRecs f m kid rest seen hkid
    | ExprStmt v =>
      simp only [methRecs]; exact streamOk_methRecs f m kid rest seen hkid

theorem streamOk_impRecs (m : String) :
    (names : List String) → (seen : List String) → m ∈ seen →
    StreamOk m seen (impRecs m names)
  | [], _, _ => trivial
  | spec :: rest, seen, hm => by
    simp only [impRecs, StreamOk]
    exact ⟨List.mem_cons_of_mem _ hm, List.mem_cons_self _ _,
      streamOk_impRecs m rest _ (List.mem_cons_of_mem _ hm)⟩

mutual

theorem streamOk_stmtRecs (f m : String) :
    (s : Stmt) → (seen : List String) → m ∈ seen →
    StreamOk m seen (stmtRecs f m s)
  | .FunctionDef name pos body, seen, hm => by
    simp only [stmtRecs, StreamOk]
    exact ⟨List.mem_cons_of_mem _ hm, List.mem_cons_self _ _,
      streamOk_stmtRecsL f m body _ (List.mem_cons_of_mem _ hm)⟩
  | .ClassDef name pos body, seen, hm => by
    simp only [stmtRecs, StreamOk]
    refine ⟨List.mem_cons_of_mem _ hm, List.mem_cons_self _ _, ?_⟩
    refine (streamOk_append m _ _ _).mpr
      ⟨streamOk_methRecs f m _ body _ (List.mem_cons_self _ _), ?_⟩
    exact streamOk_stmtRecsL f m body _
      (subset_seenAfter _ (methRecs f (classSym f name pos).id body)
        (List.mem_cons_of_mem _ hm))
  | .Assign targets value, seen, hm => by
    match targets with
    | [] =>
      simp only [stmtRecs, List.nil_append]
      exact (streamOk_append m (callRecsEs f m ([] : List Expr)) (callRecsE f m value) _).mpr
        ⟨streamOk_of_calls _ (fun r hr => callRecsEs_calls f m ([] : List Expr) r hr) _,
         streamOk_of_calls _ (fun r hr => callRecsE_calls f m value r hr) _⟩
    | .Name vname vpos :: rest =>
      simp only [stmtRecs, List.cons_append, List.nil_append, StreamOk]
      refine ⟨List.mem_cons_of_mem _ hm, List.mem_cons_self _ _, ?_⟩
      exact (streamOk_append m (callRecsEs f m (Expr.Name vname vpos :: rest))
          (callRecsE f m value) _).mpr
        ⟨streamOk_of_calls _ (fun r hr => callRecsEs_calls f m _ r hr) _,
         streamOk_of_calls _ (fun r hr => callRecsE_calls f m value r hr) _⟩
    | .Attribute v a :: rest =>
      simp only [stmtRecs, List.nil_append]
      exact (streamOk_append m (callRecsEs f m (Expr.Attribute v a :: rest)) (callRecsE f m value) _).mpr
        ⟨streamOk_of_calls _ (fun r hr => callRecsEs_calls f m (Expr.Attribute v a :: rest) r hr) _,
         streamOk_of_calls _ (fun r hr => callRecsE_calls f m value r hr) _⟩
    | .Subscript v i :: rest =>
      simp only [stmtRecs, List.nil_append]
      exact (streamOk_append m (callRecsEs f m (Expr.Subscript v i :: rest)) (callRecsE f m value) _).mpr
        ⟨streamOk_of_calls _ (fun r hr => callRecsEs_calls f m (Expr.Subscript v i :: rest) r hr) _,
         streamOk_of_calls _ (fun r hr => callRecsE_calls f m value r hr) _⟩
    | .Tuple elts :: rest =>
      simp only [stmtRecs, List.nil_append]
      exact (streamOk_append m (callRecsEs f m (Expr.Tuple elts :: rest)) (callRecsE f m value) _).mpr
        ⟨streamOk_of_calls _ (fun r hr => callRecsEs_calls f m (Expr.Tuple elts :: rest) r hr) _,
         streamOk_of_calls _ (fun r hr => callRecsE_calls f m value r hr) _⟩
    | .Call fn ar :: rest =>
      simp only [stmtRecs, List.nil_append]
      exact (streamOk_append m (callRecsEs f m (Expr.Call fn ar :: rest)) (callRecsE f m value) _).mpr
        ⟨streamOk_of_calls _ (fun r hr => callRecsEs_calls f m (Expr.Call fn ar :: rest) r hr) _,
         streamOk_of_calls _ (fun r hr => callRecsE_calls f m value r hr) _⟩
    | .Constant :: rest =>
      simp only [stmtRecs, List.nil_append]
      exact (streamOk_append m (callRecsEs f m (Expr.Constant :: rest)) (callRecsE f m value) _).mpr
        ⟨streamOk_of_calls _ (fun r hr => callRecsEs_calls f m (Expr.Constant :: rest) r hr) _,
         streamOk_of_calls _ (fun r hr => callRecsE_calls f m value r hr) _⟩
  | .Import names, seen, hm => by
    simp only [stmtRecs]
    exact streamOk_impRecs m names seen hm
  | .ImportFrom module level, seen, hm => by
    simp only [stmtRecs, StreamOk]
    exact ⟨List.mem_cons_of_mem _ hm, List.mem_cons_self _ _, trivial⟩
  | .ExprStmt value, seen, _ => by
    simp only [stmtRecs]
    exact streamOk_of_calls _ (fun r hr => callRecsE_calls f m value r hr) seen

theorem streamOk_stmtRecsL (f m : String) :
    (ss : List Stmt) → (seen : List String) → m ∈ seen →
    StreamOk m seen (stmtRecsL f m ss)
  | [], _, _ => trivial
  | s :: rest, seen, hm => by
    simp only [stmtRecsL]
    exact (streamOk_append m _ _ _).mpr
      ⟨streamOk_stmtRecs f m s seen hm,
       streamOk_stmtRecsL f m rest _
         (subset_seenAfter seen (stmtRecs f m s) hm)⟩

end

/-! ### Record filters -/

/-- The ids of the symbol records of a stream, in emission order. -/
def symbolIds (rs : List Record) : List String :=
  rs.filterMap fun r => match r with
    | Record.symbol s => some s.id
    | _ => none

/-- The variable symbols of a stream, in emission order. -/
def varSymbols (rs : List Record) : List Symbol :=
  rs.filterMap fun r => match r with
    | Record.symbol s => if s.kind = "variable" then some s else none
    | _ => none

theorem varSymbols_append (a b : List Record) :
    varSymbols (a ++ b) = varSymbols a ++ varSymbols b :=
  List.filterMap_append a b _

theorem varSymbols_calls_nil {f m : String} :
    (rs : List Record) → (∀ r ∈ rs, ∃ nm, r = Record.call nm f m) →
    varSymbols rs = []
  | [], _ => rfl
  | r :: rs, h => by
    have htail := varSymbols_calls_nil rs (fun x hx => h x (List.mem_cons_of_mem _ hx))
    rcases h r (List.mem_cons_self r rs) with ⟨nm, rfl⟩
    simpa [varSymbols] using htail

/-! ### Name-index membership -/

/-- `sym` is one of the symbols listed under `nm` in the index. -/
def IndexHas (idx : List (String × List Symbol)) (nm : String) (sym : Symbol) : Prop :=
  ∃ l, (nm, l) ∈ idx ∧ sym ∈ l

theorem indexAdd_has (idx : List (String × List Symbol)) (nm : String) (sym : Symbol) :
    IndexHas (indexAdd idx nm sym) nm sym := by
  unfold indexAdd
  by_cases h : idx.any fun p => p.1 == nm
  · rw [if_pos h]
    rcases List.any_eq_true.mp h with ⟨p, hp, hpe⟩
    have hnm : p.1 = nm := by simpa using hpe
    refine ⟨p.2 ++ [sym], ?_, by simp⟩
    have himg : (if p.1 == nm then (p.1, p.2 ++ [sym]) else p) = (nm, p.2 ++ [sym]) := by
      rw [if_pos hpe, hnm]
    exact himg ▸ List.mem_map_of_mem _ hp
  · rw [if_neg h]
    exact ⟨[sym], List.mem_append_right _ (List.mem_singleton.mpr rfl), by simp⟩

theorem indexAdd_pres {idx : List (String × List Symbol)} {nm : String} {sym : Symbol}
    (nm' : String) (sym' : Symbol) (h : IndexHas idx nm sym) :
    IndexHas (indexAdd idx nm' sym') nm sym := by
  rcases h with ⟨l, hl, hs⟩
  unfold indexAdd
  by_cases hany : idx.any fun p => p.1 == nm'
  · rw [if_pos hany]
    by_cases he : (nm == nm') = true
    · refine ⟨l ++ [sym'], ?_, List.mem_append_left _ hs⟩
      have himg : (if (nm, l).1 == nm' then ((nm, l).1, (nm, l).2 ++ [sym'])
          else (nm, l)) = (nm, l ++ [sym']) := by simp [he]
      exact himg ▸ List.mem_map_of_mem _ hl
    · refine ⟨l, ?_, hs⟩
      have himg : (if (nm, l).1 == nm' then ((nm, l).1, (nm, l).2 ++ [sym'])
          else (nm, l)) = (nm, l) := by
        simp only [if_neg he]
      exact himg ▸ List.mem_map_of_mem _ hl
  · rw [if_neg hany]
    exact ⟨l, List.mem_append_left _ hl, hs⟩

theorem importScan_index (modId : String) :
    (st : VState) → (names : List String) →
    (importScan modId st names).index = st.index
  | _, [] => rfl
  | st, spec :: rest => by
    simp only [importScan]
    exact importScan_index modId _ rest

theorem methodScan_idx_pres (f kid : String) :
    (body : List Stmt) → (st : VState) → (nm : String) → (sym : Symbol) →
    IndexHas st.index nm sym → IndexHas (methodScan f kid st body).index nm sym
  | [], _, _, _, h => h
  | s :: rest, st, nm, sym, h => by
    cases s with
    | FunctionDef mname mpos b =>
      simp only [methodScan]
      exact methodScan_idx_pres f kid rest _ nm sym (indexAdd_pres _ _ h)
    | ClassDef n p b =>
      simp only [methodScan]; exact methodScan_idx_pres f kid rest st nm sym h
    | Assign t v =>
      simp only [methodScan]; exact methodScan_idx_pres f kid rest st nm sym h
    | Import n =>
      simp only [methodScan]; exact methodScan_idx_pres f kid rest st nm sym h
    | ImportFrom mo l =>
      simp only [methodScan]; exact methodScan_idx_pres f kid rest st nm sym h
    | ExprStmt v =>
      simp only [methodScan]; exact methodScan_idx_pres f kid rest st nm sym h

mutual

theorem visitStmt_idx_pres (f m : String) :
    (s : Stmt) → (st : VState) → (nm : String) → (sym : Symbol) →
    IndexHas st.index nm sym → IndexHas (visitStmt f m st s).index nm sym
  | .FunctionDef name pos body, st, nm, sym, h => by
    simp only [visitStmt]
    exact visitStmts_idx_pres f m body _ nm sym (indexAdd_pres _ _ h)
  | .ClassDef name pos body, st, nm, sym, h => by
    simp only [visitStmt]
    exact visitStmts_idx_pres f m body _ nm sym
      (methodScan_idx_pres f _ body _ nm sym h)
  | .Assign targets value, st, nm, sym, h => by
    match targets with
    | [] =>
      simp only [visitStmt]
      rw [visitExpr_eq, visitExprs_eq]
      exact h
    | .Name vname vpos :: rest =>
      simp only [visitStmt]
      rw [visitExpr_eq, visitExprs_eq]
      exact indexAdd_pres _ _ h
    | .Attribute v a :: rest =>
      simp only [visitStmt]
      rw [visitExpr_eq, visitExprs_eq]
      exact h
    | .Subscript v i :: rest =>
      simp only [visitStmt]
      rw [visitExpr_eq, visitExprs_eq]
      exact h
    | .Tuple elts :: rest =>
      simp only [visitStmt]
      rw [visitExpr_eq, visitExprs_eq]
      exact h
    | .Call fn ar :: rest =>
      simp only [visitStmt]
      rw [visitExpr_eq, visitExprs_eq]
      exact h
    | .Constant :: rest =>
      simp only [visitStmt]
      rw [visitExpr_eq, visitExprs_eq]
      exact h
  | .Import names, st, nm, sym, h => by
    simp only [visitStmt]
    rw [importScan_index]
    exact h
  | .ImportFrom module level, st, nm, sym, h => by
    simp only [visitStmt]
    exact h
  | .ExprStmt value, st, nm, sym, h => by
    simp only [visitStmt]
    rw [visitExpr_eq]
    exact h

theorem visitStmts_idx_pres (f m : String) :
    (ss : List Stmt) → (st : VState) → (nm : String) → (sym : Symbol) →
    IndexHas st.index nm sym → IndexHas (visitStmts f m st ss).index nm sym
  | [], _, _, _, h => h
  | s :: rest, st, nm, sym, h => by
    simp only [visitStmts]
    exact visitStmts_idx_pres f m rest _ nm sym (visitStmt_idx_pres f m s st nm sym h)

end

theorem methodScan_idx_adds (f kid : String) :
    (body : List Stmt) → (st : VState) → (mname : String) → (mpos : Pos) →
    (mbody : List Stmt) → Stmt.FunctionDef mname mpos mbody ∈ body →
    IndexHas (methodScan f kid st body).index mname (methSym f kid mname mpos)
  | s :: rest, st, mname, mpos, mbody, hmem => by
    cases hmem with
    | head =>
      simp only [methodScan]
      exact methodScan_idx_pres f kid rest _ _ _ (indexAdd_has _ _ _)
    | tail _ h =>
      cases s with
      | FunctionDef n p b =>
        simp only [methodScan]
        exact methodScan_idx_adds f kid rest _ mname mpos mbody h
      | ClassDef n p b =>
        simp only [methodScan]
        exact methodScan_idx_adds f kid rest st mname mpos mbody h
      | Assign t v =>
        simp only [methodScan]
        exact methodScan_idx_adds f kid rest st mname mpos mbody h
      | Import n =>
        simp only [methodScan]
        exact methodScan_idx_adds f kid rest st mname mpos mbody h
      | ImportFrom mo l =>
        simp only [methodScan]
        exact methodScan_idx_adds f kid rest st mname mpos mbody h
      | ExprStmt v =>
        simp only [methodScan]
        exact methodScan_idx_adds f kid rest st mname mpos mbody h

theorem visitStmts_idx_adds_fn (f m : String) :
    (ss : List Stmt) → (st : VState) → (name : String) → (pos : Pos) →
    (body : List Stmt) → Stmt.FunctionDef name pos body ∈ ss →
    IndexHas (visitStmts f m st ss).index name (fnSym f name pos)
  | s :: rest, st, name, pos, body, hmem => by
    cases hmem with
    | head =>
      simp only [visitStmts, visitStmt]
      exact visitStmts_idx_pres f m rest _ _ _
        (visitStmts_idx_pres f m body _ _ _ (indexAdd_has _ _ _))
    | tail _ h =>
      simp only [visitStmts]
      exact visitStmts_idx_adds_fn f m rest _ name pos body h

/-! ### Membership of deltas -/

theorem methRecs_mem (f kid : String) :
    (body : List Stmt) → (mname : String) → (mpos : Pos) → (mbody : List Stmt) →
    Stmt.FunctionDef mname mpos mbody ∈ body →
    Record.symbol (methSym f kid mname mpos) ∈ methRecs f kid body ∧
    Record.edge ⟨kid, "member_of", (methSym f kid mname mpos).id⟩ ∈ methRecs f kid body
  | s :: rest, mname, mpos, mbody, hmem => by
    cases hmem with
    | head =>
      simp only [methRecs]
      exact ⟨List.mem_cons_self _ _, List.mem_cons_of_mem _ (List.mem_cons_self _ _)⟩
    | tail _ h =>
      cases s with
      | FunctionDef n p b =>
        have ih := methRecs_mem f kid rest mname mpos mbody h
        simp only [methRecs]
        exact ⟨List.mem_cons_of_mem _ (List.mem_cons_of_mem _ ih.1),
               List.mem_cons_of_mem _ (List.mem_cons_of_mem _ ih.2)⟩
      | ClassDef n p b =>
        simpa only [methRecs] using methRecs_mem f kid rest mname mpos mbody h
      | Assign t v =>
        simpa only [methRecs] using methRecs_mem f kid rest mname mpos mbody h
      | Import n =>
        simpa only [methRecs] using methRecs_mem f kid rest mname mpos mbody h
      | ImportFrom mo l =>
        simpa only [methRecs] using methRecs_mem f kid rest mname mpos mbody h
      | ExprStmt v =>
        simpa only [methRecs] using methRecs_mem f kid rest mname mpos mbody h

theorem stmtRecsL_mem_fn (f m : String) :
    (ss : List Stmt) → (name : String) → (pos : Pos) → (body : List Stmt) →
    Stmt.FunctionDef name pos body ∈ ss →
    Record.symbol (fnSym f name pos) ∈ stmtRecsL f m ss ∧
    Record.edge ⟨m, "defines", (fnSym f name pos).id⟩ ∈ stmtRecsL f m ss
  | s :: rest, name, pos, body, hmem => by
    cases hmem with
    | head =>
      simp only [stmtRecsL, stmtRecs]
      exact ⟨List.mem_append_left _ (List.mem_cons_self _ _),
             List.mem_append_left _ (List.mem_cons_of_mem _ (List.mem_cons_self _ _))⟩
    | tail _ h =>
      have ih := stmtRecsL_mem_fn f m rest name pos body h
      simp only [stmtRecsL]
      exact ⟨List.mem_append_right _ ih.1, List.mem_append_right _ ih.2⟩

/-! ### Claims -/

set_option maxRecDepth 1000000

theorem pseudoSym_id (spec : String) :
    (pseudoSym spec).id = make_id ["module", spec, spec, "1", "1"] := by
  simp only [pseudoSym]

theorem modSym_id (f : String) :
    (modSym f).id = make_id ["module", "python", f, "1", "1"] := by
  simp only [modSym]

theorem symbolIds_pair (s : Symbol) (e : Edge) :
    symbolIds [Record.symbol s, Record.edge e] = [s.id] := rfl

/-- **C1, amended.**  Every symbol record of a file's stream satisfies the
id law `id = make_id(kind, name, file, startLine, startCol)` — except the
file's module root symbol (always the first record of the stream), whose id
instead hashes the language tag in place of the symbol's name:
`make_id("module", "python", file, 1, 1)`. -/
theorem claim_C1_amended (f : String) (tree : List Stmt) :
    (ingest_tree f tree).head? = some (Record.symbol (modSym f)) ∧
    (modSym f).id = make_id ["module", "python", f, "1", "1"] ∧
    RecsTupleOk (ingest_tree f tree).tail := by
  rw [ingest_tree_eq]
  refine ⟨rfl, modSym_id f, ?_⟩
  simp only [List.tail_cons]
  refine recsTupleOk_append (stmtRecsL_tupleOk f _ tree) ?_
  intro r hr s hs
  rw [List.mem_singleton.mp hr] at hs
  exact Record.noConfusion hs

/-- Witness for C1: the id law evaluated at a concrete function symbol in a
concrete one-function file. -/
theorem claim_C1_witness :
    SymTupleOk (fnSym "a.src" "f" ⟨1, 0, some 1, some 13⟩) := by
  have h := claim_C1_amended "a.src" [Stmt.FunctionDef "f" ⟨1, 0, some 1, some 13⟩ []]
  refine h.2.2 (Record.symbol (fnSym "a.src" "f" ⟨1, 0, some 1, some 13⟩)) ?_ _ rfl
  rw [ingest_tree_eq]
  simp only [List.tail_cons, stmtRecsL, stmtRecs]
  exact List.mem_append_left _ (List.mem_append_left _ (List.mem_cons_self _ _))

/-- **C1, counterexample.**  The module root symbol emitted for `a.src` (the
stream's first record) violates the claimed id law: its id hashes
`("module", "python", "a.src", 1, 1)`, not `(kind, name, file, line, col)`
(which would be `("module", "a.src", "a.src", 1, 1)`). -/
theorem claim_C1_counterexample :
    (ingest_tree "a.src" []).head? = some (Record.symbol (modSym "a.src")) ∧
    ¬ SymTupleOk (modSym "a.src") := by
  constructor
  · rw [ingest_tree_eq]
    rfl
  · unfold SymTupleOk
    decide

/-- **C3.**  Determinism: the records a file's traversal appends are a pure
function of `(file, tree)` only — two runs from arbitrary distinct prior
emission states produce identical per-file symbol-id sequences. -/
theorem claim_C3 (f : String) (tree : List Stmt) (st₁ st₂ : VState) :
    symbolIds ((visitStmts f (modSym f).id st₁ tree).records.drop st₁.records.length) =
    symbolIds ((visitStmts f (modSym f).id st₂ tree).records.drop st₂.records.length) := by
  rw [visitStmts_records, visitStmts_records, List.drop_left, List.drop_left]

/-- **C4.**  In every file's stream, each edge's `src` and `dst` are ids of
symbol records emitted strictly earlier in that stream, and each call
record's `modId` is the id of the module symbol emitted first. -/
theorem claim_C4 (f : String) (tree : List Stmt) :
    (ingest_tree f tree).head? = some (Record.symbol (modSym f)) ∧
    StreamOk (modSym f).id [] (ingest_tree f tree) := by
  rw [ingest_tree_eq]
  refine ⟨rfl, ?_⟩
  simp only [StreamOk]
  refine (streamOk_append (modSym f).id _ _ _).mpr ⟨?_, ?_⟩
  · exact streamOk_stmtRecsL f _ tree _ (List.mem_singleton.mpr rfl)
  · simp only [StreamOk]

/-- **C5.**  A failed read or a failed parse emits no record of any kind:
`ingest_file` returns the empty stream in both cases. -/
theorem claim_C5 (f src : String) (parse : String → Option (List Stmt))
    (h : parse src = none) :
    ingest_file f (some src) parse = [] ∧ ingest_file f none parse = [] := by
  constructor
  · simp [ingest_file, h]
  · rfl

/-- Witness for C5 at a concrete unreadable/unparsable file. -/
theorem claim_C5_witness :
    ingest_file "a.py" (some "def f(:") (fun _ => none) = [] ∧
    ingest_file "a.py" none (fun _ => none) = [] :=
  claim_C5 "a.py" "def f(:" (fun _ => none) rfl

/-- **C6, counterexample.**  For `from ..pkg import x`-style nodes the code
computes the specifier as the module path followed by the dots, not the dots
followed by the module path: at `module = "pkg"`, `level = 1` the emitted
pseudo-module is named `"pkg."`, and `"pkg." ≠ ".pkg"`. -/
theorem claim_C6_counterexample :
    (visitStmt "a.py" "M" ⟨[], []⟩ (Stmt.ImportFrom (some "pkg") 1)).records =
      [Record.symbol (pseudoSym "pkg."),
       Record.edge ⟨"M", "import", (pseudoSym "pkg.").id⟩] ∧
    (pseudoSym "pkg.").name = "pkg." ∧ "pkg." ≠ ".pkg" := by
  refine ⟨by decide, rfl, by decide⟩

/-- **C6, amended.**  A from-import with module path `m` and relative level
`L` emits exactly one pseudo-module symbol and one import edge, for the
single specifier computed as the module path with the `L` dots **appended**
(`(module or '') + '.' * level`), the index unchanged. -/
theorem claim_C6_amended (f m : String) (st : VState) (module : Option String)
    (level : Nat) :
    visitStmt f m st (Stmt.ImportFrom module level) =
      ⟨st.records ++
        [Record.symbol (pseudoSym (module.getD "" ++ String.mk (List.replicate level '.'))),
         Record.edge ⟨m, "import",
           (pseudoSym (module.getD "" ++ String.mk (List.replicate level '.'))).id⟩],
       st.index⟩ := by
  simp only [visitStmt, emit, List.append_assoc, List.singleton_append]

/-- **C7.**  Pseudo-module identity is a function of the specifier alone:
in any file, under any module id, from any prior state, both import forms
emit a pseudo-module symbol whose id is `make_id("module", spec, spec, 1, 1)`
— so two import statements with equal specifiers get identical ids. -/
theorem claim_C7 (spec f₁ m₁ f₂ m₂ : String) (st₁ st₂ : VState) :
    symbolIds ((visitStmt f₁ m₁ st₁ (Stmt.Import [spec])).records.drop
        st₁.records.length) = [make_id ["module", spec, spec, "1", "1"]] ∧
    symbolIds ((visitStmt f₂ m₂ st₂ (Stmt.ImportFrom (some spec) 0)).records.drop
        st₂.records.length) = [make_id ["module", spec, spec, "1", "1"]] := by
  rw [visitStmt_records, visitStmt_records, List.drop_left, List.drop_left]
  constructor
  · simp only [stmtRecs, impRecs]
    rw [symbolIds_pair, pseudoSym_id]
  · simp only [stmtRecs, Option.getD_some, List.replicate_zero]
    rw [show String.mk ([] : List Char) = "" from rfl, String.append_empty]
    rw [symbolIds_pair, pseudoSym_id]

/-! ### The end-to-end scenario (C2): `a.src` with `f`, and `C` holding `m` -/

def scenario : List Stmt :=
  [Stmt.FunctionDef "f" ⟨1, 0, some 1, some 13⟩ [Stmt.ExprStmt Expr.Constant],
   Stmt.ClassDef "C" ⟨3, 0, some 4, some 16⟩
     [Stmt.FunctionDef "m" ⟨4, 4, some 4, some 16⟩ [Stmt.ExprStmt Expr.Constant]]]

def fS : Symbol := fnSym "a.src" "f" ⟨1, 0, some 1, some 13⟩

def cS : Symbol := classSym "a.src" "C" ⟨3, 0, some 4, some 16⟩

def mMethS : Symbol := methSym "a.src" cS.id "m" ⟨4, 4, some 4, some 16⟩

def mFnS : Symbol := fnSym "a.src" "m" ⟨4, 4, some 4, some 16⟩

/-- **C2, counterexample.**  The scenario's stream has 10 records, not the 8
the claim lists: it also contains a `function`-kind symbol named `m` (the
method re-emitted by the continued generic traversal of the class body). -/
theorem claim_C2_counterexample :
    (ingest_tree "a.src" scenario).length = 10 ∧
    Record.symbol mFnS ∈ ingest_tree "a.src" scenario ∧
    mFnS.kind = "function" ∧ mFnS.name = "m" := by
  refine ⟨rfl, ?_, rfl, rfl⟩
  decide

/-- **C2, amended.**  The scenario emits, in order: the module symbol; `f`'s
function symbol and defines edge; `C`'s class symbol and defines edge; `m`'s
method symbol (with `parentId = C.id`) and `member_of` edge; **additionally**
`m`'s function symbol and a defines edge module→m (generic traversal into the
class body); and the final `name_index`, whose entry for `m` lists both the
method and the function symbol (no entry for `C`). -/
theorem claim_C2_amended :
    ingest_tree "a.src" scenario =
      [Record.symbol (modSym "a.src"),
       Record.symbol fS,
       Record.edge ⟨(modSym "a.src").id, "defines", fS.id⟩,
       Record.symbol cS,
       Record.edge ⟨(modSym "a.src").id, "defines", cS.id⟩,
       Record.symbol mMethS,
       Record.edge ⟨cS.id, "member_of", mMethS.id⟩,
       Record.symbol mFnS,
       Record.edge ⟨(modSym "a.src").id, "defines", mFnS.id⟩,
       Record.name_index "a.src" [("f", [fS]), ("m", [mMethS, mFnS])]] := by
  rfl

/-! ### C8: the variable filter of `visit_Assign` -/

theorem varSym_kind (f n : String) (p : Pos) : (varSym f n p).kind = "variable" := rfl

theorem varSym_name (f n : String) (p : Pos) : (varSym f n p).name = n := rfl

theorem varSymbols_pair (v : Symbol) (e : Edge) (h : v.kind = "variable") :
    varSymbols [Record.symbol v, Record.edge e] = [v] := by
  simp [varSymbols, h]

/-- **C8.**  An assignment whose left-most target is a single identifier
emits exactly one variable symbol, named for that identifier; an assignment
whose left-most target is a tuple, an attribute, or a subscript emits zero
variable symbols. -/
theorem claim_C8 (f m : String) (st : VState) (value : Expr) :
    (∀ vname vpos rest,
      varSymbols ((visitStmt f m st
          (Stmt.Assign (Expr.Name vname vpos :: rest) value)).records.drop
          st.records.length) = [varSym f vname vpos] ∧
      (varSym f vname vpos).name = vname) ∧
    (∀ elts rest,
      varSymbols ((visitStmt f m st
          (Stmt.Assign (Expr.Tuple elts :: rest) value)).records.drop
          st.records.length) = []) ∧
    (∀ v a rest,
      varSymbols ((visitStmt f m st
          (Stmt.Assign (Expr.Attribute v a :: rest) value)).records.drop
          st.records.length) = []) ∧
    (∀ v i rest,
      varSymbols ((visitStmt f m st
          (Stmt.Assign (Expr.Subscript v i :: rest) value)).records.drop
          st.records.length) = []) := by
  refine ⟨fun vname vpos rest => ⟨?_, varSym_name f vname vpos⟩,
          fun elts rest => ?_, fun v a rest => ?_, fun v i rest => ?_⟩
  · rw [visitStmt_records, List.drop_left]
    simp only [stmtRecs, varSymbols_append]
    rw [varSymbols_calls_nil _ (fun r hr => callRecsEs_calls f m _ r hr),
        varSymbols_calls_nil _ (fun r hr => callRecsE_calls f m value r hr),
        varSymbols_pair _ _ (varSym_kind f vname vpos)]
    simp
  · rw [visitStmt_records, List.drop_left]
    simp only [stmtRecs, List.nil_append, varSymbols_append]
    rw [varSymbols_calls_nil _ (fun r hr => callRecsEs_calls f m _ r hr),
        varSymbols_calls_nil _ (fun r hr => callRecsE_calls f m value r hr)]
    rfl
  · rw [visitStmt_records, List.drop_left]
    simp only [stmtRecs, List.nil_append, varSymbols_append]
    rw [varSymbols_calls_nil _ (fun r hr => callRecsEs_calls f m _ r hr),
        varSymbols_calls_nil _ (fun r hr => callRecsE_calls f m value r hr)]
    rfl
  · rw [visitStmt_records, List.drop_left]
    simp only [stmtRecs, List.nil_append, varSymbols_append]
    rw [varSymbols_calls_nil _ (fun r hr => callRecsEs_calls f m _ r hr),
        varSymbols_calls_nil _ (fun r hr => callRecsE_calls f m value r hr)]
    rfl

/-- **C9.**  `range_of` ranges: `startLine` is the node's (1-based) line,
`startCol` converts the 0-based column to 1-based by adding one, and an
absent end position collapses the end onto the start; a present end position
is taken as reported. -/
theorem claim_C9 (pos : Pos) :
    (range_of pos).startLine = pos.lineno ∧
    (range_of pos).startCol = pos.colOffset + 1 ∧
    (pos.endLineno = none → (range_of pos).endLine = (range_of pos).startLine) ∧
    (pos.endColOffset = none → (range_of pos).endCol = (range_of pos).startCol) ∧
    (∀ el, pos.endLineno = some el → (range_of pos).endLine = el) ∧
    (∀ ec, pos.endColOffset = some ec → (range_of pos).endCol = ec) := by
  refine ⟨rfl, rfl, fun h => ?_, fun h => ?_, fun el h => ?_, fun ec h => ?_⟩ <;>
    simp [range_of, h]

/-- Witness for C9 at a node with no end position. -/
theorem claim_C9_witness :
    (⟨5, 3, none, none⟩ : Pos).endLineno = none ∧
    (range_of ⟨5, 3, none, none⟩).endLine = (range_of ⟨5, 3, none, none⟩).startLine ∧
    (range_of ⟨5, 3, none, none⟩).endCol = (range_of ⟨5, 3, none, none⟩).startCol :=
  ⟨rfl, (claim_C9 ⟨5, 3, none, none⟩).2.2.1 rfl,
   (claim_C9 ⟨5, 3, none, none⟩).2.2.2.1 rfl⟩

/-- **C10.**  A function declared directly in a class body is emitted twice:
as a method symbol (with `parentId` = the class id) plus a `member_of` edge,
and again — via the continued generic traversal into the class body — as a
function symbol with a `defines` edge from the module; its name is indexed
under both symbols. -/
theorem claim_C10 (f m : String) (st : VState) (cname : String) (cpos : Pos)
    (body : List Stmt) (mname : String) (mpos : Pos) (mbody : List Stmt)
    (hmem : Stmt.FunctionDef mname mpos mbody ∈ body) :
    Record.symbol (methSym f (classSym f cname cpos).id mname mpos) ∈
      (visitStmt f m st (Stmt.ClassDef cname cpos body)).records ∧
    Record.edge ⟨(classSym f cname cpos).id, "member_of",
        (methSym f (classSym f cname cpos).id mname mpos).id⟩ ∈
      (visitStmt f m st (Stmt.ClassDef cname cpos body)).records ∧
    Record.symbol (fnSym f mname mpos) ∈
      (visitStmt f m st (Stmt.ClassDef cname cpos body)).records ∧
    Record.edge ⟨m, "defines", (fnSym f mname mpos).id⟩ ∈
      (visitStmt f m st (Stmt.ClassDef cname cpos body)).records ∧
    IndexHas (visitStmt f m st (Stmt.ClassDef cname cpos body)).index mname
      (methSym f (classSym f cname cpos).id mname mpos) ∧
    IndexHas (visitStmt f m st (Stmt.ClassDef cname cpos body)).index mname
      (fnSym f mname mpos) := by
  have hrec := visitStmt_records f m st (Stmt.ClassDef cname cpos body)
  have hmeth := methRecs_mem f (classSym f cname cpos).id body mname mpos mbody hmem
  have hfn := stmtRecsL_mem_fn f m body mname mpos mbody hmem
  refine ⟨?_, ?_, ?_, ?_, ?_, ?_⟩
  · rw [hrec]; simp only [stmtRecs]
    exact List.mem_append_right _ (List.mem_cons_of_mem _ (List.mem_cons_of_mem _
      (List.mem_append_left _ hmeth.1)))
  · rw [hrec]; simp only [stmtRecs]
    exact List.mem_append_right _ (List.mem_cons_of_mem _ (List.mem_cons_of_mem _
      (List.mem_append_left _ hmeth.2)))
  · rw [hrec]; simp only [stmtRecs]
    exact List.mem_append_right _ (List.mem_cons_of_mem _ (List.mem_cons_of_mem _
      (List.mem_append_right _ hfn.1)))
  · rw [hrec]; simp only [stmtRecs]
    exact List.mem_append_right _ (List.mem_cons_of_mem _ (List.mem_cons_of_mem _
      (List.mem_append_right _ hfn.2)))
  · simp only [visitStmt]
    exact visitStmts_idx_pres f m body _ _ _
      (methodScan_idx_adds f _ body _ mname mpos mbody hmem)
  · simp only [visitStmt]
    exact visitStmts_idx_adds_fn f m body _ mname mpos mbody hmem

/-- Witness for C10 at a concrete one-method class. -/
theorem claim_C10_witness :
    Record.symbol (methSym "a.src" (classSym "a.src" "C" ⟨3, 0, none, none⟩).id
        "m" ⟨4, 4, none, none⟩) ∈
      (visitStmt "a.src" "M" ⟨[], []⟩ (Stmt.ClassDef "C" ⟨3, 0, none, none⟩
        [Stmt.FunctionDef "m" ⟨4, 4, none, none⟩ []])).records ∧
    Record.edge ⟨(classSym "a.src" "C" ⟨3, 0, none, none⟩).id, "member_of",
        (methSym "a.src" (classSym "a.src" "C" ⟨3, 0, none, none⟩).id
          "m" ⟨4, 4, none, none⟩).id⟩ ∈
      (visitStmt "a.src" "M" ⟨[], []⟩ (Stmt.ClassDef "C" ⟨3, 0, none, none⟩
        [Stmt.FunctionDef "m" ⟨4, 4, none, none⟩ []])).records ∧
    Record.symbol (fnSym "a.src" "m" ⟨4, 4, none, none⟩) ∈
      (visitStmt "a.src" "M" ⟨[], []⟩ (Stmt.ClassDef "C" ⟨3, 0, none, none⟩
        [Stmt.FunctionDef "m" ⟨4, 4, none, none⟩ []])).records ∧
    Record.edge ⟨"M", "defines", (fnSym "a.src" "m" ⟨4, 4, none, none⟩).id⟩ ∈
      (visitStmt "a.src" "M" ⟨[], []⟩ (Stmt.ClassDef "C" ⟨3, 0, none, none⟩
        [Stmt.FunctionDef "m" ⟨4, 4, none, none⟩ []])).records ∧
    IndexHas (visitStmt "a.src" "M" ⟨[], []⟩ (Stmt.ClassDef "C" ⟨3, 0, none, none⟩
        [Stmt.FunctionDef "m" ⟨4, 4, none, none⟩ []])).index "m"
      (methSym "a.src" (classSym "a.src" "C" ⟨3, 0, none, none⟩).id
        "m" ⟨4, 4, none, none⟩) ∧
    IndexHas (visitStmt "a.src" "M" ⟨[], []⟩ (Stmt.ClassDef "C" ⟨3, 0, none, none⟩
        [Stmt.FunctionDef "m" ⟨4, 4, none, none⟩ []])).index "m"
      (fnSym "a.src" "m" ⟨4, 4, none, none⟩) :=
  claim_C10 "a.src" "M" ⟨[], []⟩ "C" ⟨3, 0, none, none⟩
    [Stmt.FunctionDef "m" ⟨4, 4, none, none⟩ []] "m" ⟨4, 4, none, none⟩ []
    (List.Mem.head _)

end CodeGraph
